import Mathlib

/-!
Shallow embedding of the expense-tracker application.

The data model follows `types/expense.ts`.  Machine numbers (`amount`,
aggregate totals) are modelled as rationals; a JavaScript `Date` value is
modelled by the observations the code makes of it: the raw ISO string
(`str`), the epoch-milliseconds instant (`time`, used by `getTime` and by
`Date` comparisons), and the calendar `month` / `year` components
(`getMonth` / `getFullYear`).
-/

inductive ExpenseCategory : Type
  | Food
  | Transportation
  | Entertainment
  | Shopping
  | Bills
  | Other
deriving DecidableEq, Repr

/-- The observations the code makes of a JavaScript `Date` value. -/
structure JsDate : Type where
  str : String
  time : Int
  month : Nat
  year : Int
deriving DecidableEq, Repr

/-- The `Expense` record of `types/expense.ts`. -/
structure Expense : Type where
  id : String
  date : JsDate
  amount : Rat
  category : ExpenseCategory
  description : String
  createdAt : String
  updatedAt : String
deriving DecidableEq, Repr

/-- A value of TypeScript type `Partial<Expense>`: every field optional. -/
structure PartialExpense : Type where
  id : Option String
  date : Option JsDate
  amount : Option Rat
  category : Option ExpenseCategory
  description : Option String
  createdAt : Option String
  updatedAt : Option String
deriving DecidableEq, Repr

/-! ## Persistence adapter (`lib/storage.ts`) -/

/-- The list transformation of `storageUtils.addExpense`:
`[...expenses, expense]`, which is persisted and returned. -/
def addExpense (expenses : List Expense) (expense : Expense) : List Expense :=
  expenses ++ [expense]

/-- The list transformation of `storageUtils.updateExpense`: the source maps
`expense.id === id ? { ...expense, ...updatedExpense, updatedAt: new Date().toISOString() } : expense`
over the stored list.  The object spread means each field of the result is the
value of the partial update when present, otherwise that of the old record, and the
final `updatedAt:` entry wins over any `updatedAt` in the partial.  The
timestamp `new Date().toISOString()` is passed in as `now`. -/
def updateExpense (expenses : List Expense) (id : String) (updatedExpense : PartialExpense)
    (now : String) : List Expense :=
  expenses.map fun expense =>
    if expense.id == id then
      { id := updatedExpense.id.getD expense.id
        date := updatedExpense.date.getD expense.date
        amount := updatedExpense.amount.getD expense.amount
        category := updatedExpense.category.getD expense.category
        description := updatedExpense.description.getD expense.description
        createdAt := updatedExpense.createdAt.getD expense.createdAt
        updatedAt := now }
    else expense

/-- The list transformation of `storageUtils.deleteExpense`:
`expenses.filter((expense) => expense.id !== id)`. -/
def deleteExpense (expenses : List Expense) (id : String) : List Expense :=
  expenses.filter fun expense => expense.id != id

/-- The read effect of `localStorage.getItem(STORAGE_KEY)` inside the guarding
`try`: either it throws (`Except.error`), or it returns `null`
(`Except.ok none`), or it returns the stored string. -/
def StorageRead : Type := Except Unit (Option String)

/-- `storageUtils.getExpenses`.  `window` is the flag for
the guard comparing typeof window against the undefined marker (false meaning
undefined); `read` is the
outcome of `localStorage.getItem`; `parse` is `JSON.parse` typed at
`Expense[]`, which either throws or yields a list.  The source returns `[]`
when `window` is undefined, wraps the read and the parse in `try/catch`
returning `[]` on error, and evaluates `data ? JSON.parse(data) : []`, so a
`null` or empty stored string also yields `[]`. -/
def getExpenses (window : Bool) (read : StorageRead)
    (parse : String → Except Unit (List Expense)) : List Expense :=
  if window = false then []
  else
    match read with
    | Except.error _ => []
    | Except.ok none => []
    | Except.ok (some data) =>
      if data = "" then []
      else
        match parse data with
        | Except.ok es => es
        | Except.error _ => []

/-! ## Aggregation engine (`lib/utils.ts`, `calculateSummary`) -/

/-- The `ExpenseSummary` record of `types/expense.ts`; `categoryTotals` is the
`Record<ExpenseCategory, number>` read as a total function. -/
structure ExpenseSummary : Type where
  totalExpenses : Rat
  monthlyTotal : Rat
  categoryTotals : ExpenseCategory → Rat
  topCategory : Option ExpenseCategory
  averageExpense : Rat

/-- Insertion order of the keys of the `categoryTotals` object literal, which
is the iteration order of `Object.keys` in the top-category loop. -/
def categoriesOrder : List ExpenseCategory :=
  [ExpenseCategory.Food, ExpenseCategory.Transportation, ExpenseCategory.Entertainment,
    ExpenseCategory.Shopping, ExpenseCategory.Bills, ExpenseCategory.Other]

/-- One step of the top-category loop: the mutable pair
`(topCategory, maxAmount)` is updated when `categoryTotals[category] > maxAmount`. -/
def topStep (totals : ExpenseCategory → Rat) (acc : Option ExpenseCategory × Rat)
    (category : ExpenseCategory) : Option ExpenseCategory × Rat :=
  if acc.2 < totals category then (some category, totals category) else acc

/-- `calculateSummary` of `lib/utils.ts`.  The source opens with
`const now = new Date()` and reads `now.getMonth()` / `now.getFullYear()`;
that ambient clock reading is the `now` argument here.  Everything else is a
direct transcription: the month filter, the two `reduce` sums, the
`forEach` accumulation into `categoryTotals`, the strict-greater top-category
loop over `Object.keys`, and the guarded average. -/
def calculateSummary (now : JsDate) (expenses : List Expense) : ExpenseSummary :=
  let currentMonth := now.month
  let currentYear := now.year
  let monthlyExpenses := expenses.filter fun expense =>
    expense.date.month == currentMonth && expense.date.year == currentYear
  let totalExpenses := expenses.foldl (fun sum expense => sum + expense.amount) 0
  let monthlyTotal := monthlyExpenses.foldl (fun sum expense => sum + expense.amount) 0
  let categoryTotals : ExpenseCategory → Rat := expenses.foldl
    (fun totals expense => fun c =>
      if c == expense.category then totals c + expense.amount else totals c)
    (fun _ => 0)
  let top := categoriesOrder.foldl (topStep categoryTotals) (none, 0)
  let averageExpense := if 0 < expenses.length then totalExpenses / (expenses.length : Rat) else 0
  { totalExpenses := totalExpenses
    monthlyTotal := monthlyTotal
    categoryTotals := categoryTotals
    topCategory := top.1
    averageExpense := averageExpense }

/-! ## CSV exporter (`lib/utils.ts`, `exportToCSV`) -/

/-- The string name of a category, as it appears in the CSV. -/
def categoryName : ExpenseCategory → String
  | ExpenseCategory.Food => "Food"
  | ExpenseCategory.Transportation => "Transportation"
  | ExpenseCategory.Entertainment => "Entertainment"
  | ExpenseCategory.Shopping => "Shopping"
  | ExpenseCategory.Bills => "Bills"
  | ExpenseCategory.Other => "Other"

/-- The replace call applied to the description: double every double quote. -/
def escapeQuotes (s : String) : String :=
  String.mk (s.data.foldr
    (fun c acc => if c = '\x22' then '\x22' :: '\x22' :: acc else c :: acc) [])

/-- JavaScript `Array.prototype.join(sep)` on an array of strings. -/
def joinWith (sep : String) : List String → String
  | [] => ""
  | [a] => a
  | a :: rest => a ++ sep ++ joinWith sep rest

/-- The text built by `exportToCSV` before the download is triggered.
`numStr` stands for JavaScript number-to-string coercion applied to
`expense.amount` by `Array.prototype.join`. -/
def exportToCSV (numStr : Rat → String) (expenses : List Expense) : String :=
  let headers := ["Date", "Category", "Amount", "Description"]
  joinWith "\n"
    (joinWith "," headers ::
      expenses.map fun expense =>
        joinWith ","
          [expense.date.str, categoryName expense.category, numStr expense.amount,
            "\x22" ++ escapeQuotes expense.description ++ "\x22"])

/-! ## Filter engine (`app/...` expenses page, filtering effect) -/

/-- The value of the `category` filter field: TypeScript
`ExpenseCategory` or the literal string All, wrapped in `Option` for absence. -/
inductive CategorySel : Type
  | All
  | Cat (c : ExpenseCategory)
deriving DecidableEq, Repr

/-- The `ExpenseFilters` record; an empty `searchQuery` and `none` date
bounds are the falsy values the source tests before applying a predicate.
The date bounds carry the instants `new Date(filters.startDate)` /
`new Date(filters.endDate)` compare as. -/
structure Filters : Type where
  category : Option CategorySel
  searchQuery : String
  startDate : Option Int
  endDate : Option Int
deriving DecidableEq, Repr

/-- `String.prototype.toLowerCase`. -/
def toLowerStr (s : String) : String := s.map Char.toLower

/-- `String.prototype.includes` on the underlying character sequences. -/
def containsSub (needle : List Char) : List Char → Bool
  | [] => needle.isEmpty
  | c :: rest => needle.isPrefixOf (c :: rest) || containsSub needle rest

/-- The comparator `(a, b) => new Date(b.date).getTime() - new Date(a.date).getTime()`
as the before-or-tied relation it sorts by: `a` may precede `b` exactly when
the comparator is nonpositive. -/
def dateDescRel (a b : Expense) : Prop := b.date.time ≤ a.date.time

instance : DecidableRel dateDescRel := fun a b => Int.decLe b.date.time a.date.time

instance : IsTotal Expense dateDescRel :=
  ⟨fun a b => Int.le_total b.date.time a.date.time⟩

instance : IsTrans Expense dateDescRel :=
  ⟨fun _ _ _ h1 h2 => le_trans h2 h1⟩

/-- `filtered.sort((a, b) => new Date(b.date).getTime() - new Date(a.date).getTime())`:
`Array.prototype.sort` is a stable sort, whose result is the insertion sort
by the relation of the comparator. -/
def sortByDateDesc (l : List Expense) : List Expense :=
  l.insertionSort dateDescRel

/-- The filtering effect of the expenses page: the four conditionally applied
`Array.prototype.filter` passes followed by the date-descending sort. -/
def filterExpenses (expenses : List Expense) (filters : Filters) : List Expense :=
  let l1 :=
    match filters.category with
    | some (CategorySel.Cat c) => expenses.filter fun expense => expense.category == c
    | _ => expenses
  let l2 :=
    if filters.searchQuery = "" then l1
    else
      l1.filter fun expense =>
        containsSub (toLowerStr filters.searchQuery).data (toLowerStr expense.description).data
  let l3 :=
    match filters.startDate with
    | some d => l2.filter fun expense => decide (d ≤ expense.date.time)
    | none => l2
  let l4 :=
    match filters.endDate with
    | some d => l3.filter fun expense => decide (expense.date.time ≤ d)
    | none => l3
  sortByDateDesc l4

/-! ## Helper lemmas about the aggregation engine -/

/-- Folding `sum + amount` over a list adds the total amount of the list. -/
theorem foldl_add_amount (l : List Expense) (s : Rat) :
    l.foldl (fun sum expense => sum + expense.amount) s = s + (l.map Expense.amount).sum := by
  induction l generalizing s with
  | nil => simp
  | cons e t ih => simp [List.foldl_cons, ih, add_assoc]

/-- The category-totals fold evaluates, at each category, to the initial value
plus the summed amounts of the expenses in that category. -/
theorem catTotals_apply (l : List Expense) (t0 : ExpenseCategory → Rat) (c : ExpenseCategory) :
    (l.foldl
        (fun totals expense => fun c =>
          if c == expense.category then totals c + expense.amount else totals c)
        t0) c =
      t0 c + ((l.filter fun e => e.category == c).map Expense.amount).sum := by
  induction l generalizing t0 with
  | nil => simp
  | cons e t ih =>
    simp only [List.foldl_cons, List.filter_cons, ih]
    by_cases h : e.category = c
    · simp [h, add_assoc, add_comm, add_left_comm]
    · have h' : ¬c = e.category := fun hc => h hc.symm
      simp [h, h', beq_iff_eq]

/-- The grand-total field of the summary is the sum of all amounts. -/
theorem calculateSummary_totalExpenses (now : JsDate) (l : List Expense) :
    (calculateSummary now l).totalExpenses = (l.map Expense.amount).sum := by
  simp [calculateSummary, foldl_add_amount]

/-- The category-totals field of the summary, described per category. -/
theorem calculateSummary_categoryTotals (now : JsDate) (l : List Expense) (c : ExpenseCategory) :
    (calculateSummary now l).categoryTotals c =
      ((l.filter fun e => e.category == c).map Expense.amount).sum := by
  simp only [calculateSummary]
  rw [catTotals_apply]
  simp

/-- Running maximum of the category totals along a list of categories. -/
def maxFold (t : ExpenseCategory → Rat) (m0 : Rat) (cs : List ExpenseCategory) : Rat :=
  cs.foldl (fun m c => max m (t c)) m0

theorem le_maxFold (t : ExpenseCategory → Rat) (m0 : Rat) (cs : List ExpenseCategory) :
    m0 ≤ maxFold t m0 cs := by
  induction cs generalizing m0 with
  | nil => simp [maxFold]
  | cons c cs ih =>
    calc m0 ≤ max m0 (t c) := le_max_left _ _
    _ ≤ maxFold t (max m0 (t c)) cs := ih _

theorem maxFold_mem (t : ExpenseCategory → Rat) {c : ExpenseCategory} :
    ∀ (cs : List ExpenseCategory), c ∈ cs → ∀ m0 : Rat, t c ≤ maxFold t m0 cs := by
  intro cs
  induction cs with
  | nil => intro hc; cases hc
  | cons a cs ih =>
    intro hc m0
    rcases List.mem_cons.mp hc with h | h
    · subst h
      calc t c ≤ max m0 (t c) := le_max_right _ _
      _ ≤ maxFold t (max m0 (t c)) cs := le_maxFold _ _ _
    · exact ih h _

theorem find?_congr_mem {α : Type} (p q : α → Bool) (l : List α)
    (h : ∀ a ∈ l, p a = q a) : l.find? p = l.find? q := by
  induction l with
  | nil => rfl
  | cons a l ih =>
    have ha := h a (List.mem_cons_self a l)
    by_cases hp : p a = true
    · rw [List.find?_cons_of_pos _ hp, List.find?_cons_of_pos _ (ha ▸ hp)]
    · rw [List.find?_cons_of_neg _ hp, List.find?_cons_of_neg _ (ha ▸ hp)]
      exact ih fun b hb => h b (List.mem_cons_of_mem a hb)

/-- Characterization of the top-category loop: the final running maximum is
the `max`-fold of the totals, and the recorded category is the first one in
iteration order attaining it, provided the maximum strictly improved on the
initial value; otherwise the initial candidate is kept. -/
theorem topStep_foldl (t : ExpenseCategory → Rat) (cs : List ExpenseCategory) :
    ∀ (top0 : Option ExpenseCategory) (m0 : Rat),
      cs.foldl (topStep t) (top0, m0) =
        (if m0 < maxFold t m0 cs then cs.find? fun c => decide (maxFold t m0 cs ≤ t c)
          else top0,
          maxFold t m0 cs) := by
  induction cs with
  | nil => intro top0 m0; simp [maxFold]
  | cons a cs ih =>
    intro top0 m0
    have hM : maxFold t m0 (a :: cs) = maxFold t (max m0 (t a)) cs := rfl
    by_cases h : m0 < t a
    · have hmax : max m0 (t a) = t a := max_eq_right (le_of_lt h)
      have hstep : topStep t (top0, m0) a = (some a, t a) := by simp [topStep, h]
      rw [List.foldl_cons, hstep, ih (some a) (t a)]
      have hta : t a ≤ maxFold t m0 (a :: cs) := by rw [hM, hmax]; exact le_maxFold _ _ _
      have hm0 : m0 < maxFold t m0 (a :: cs) := lt_of_lt_of_le h hta
      rw [hM, hmax] at *
      by_cases h2 : maxFold t (t a) cs ≤ t a
      · have heq : maxFold t (t a) cs = t a := le_antisymm h2 (le_maxFold _ _ _)
        rw [if_neg (by rw [heq]; exact lt_irrefl _), if_pos hm0,
          List.find?_cons_of_pos _ (by simp [heq])]
      · have hlt : t a < maxFold t (t a) cs := lt_of_not_le h2
        rw [if_pos hlt, if_pos hm0, List.find?_cons_of_neg _ (by simpa using h2)]
    · have hmax : max m0 (t a) = m0 := max_eq_left (not_lt.mp h)
      have hstep : topStep t (top0, m0) a = (top0, m0) := by simp [topStep, h]
      rw [List.foldl_cons, hstep, ih top0 m0]
      rw [hM, hmax]
      by_cases h2 : m0 < maxFold t m0 cs
      · have hna : ¬maxFold t m0 cs ≤ t a :=
          fun hle => absurd (lt_of_lt_of_le h2 (le_trans hle (not_lt.mp h))) (lt_irrefl m0)
        rw [if_pos h2, if_pos h2, List.find?_cons_of_neg _ (by simpa using hna)]
      · rw [if_neg h2, if_neg h2]

/-- The top-category rule as the specification states it: `none` when all six
category totals are `0`, otherwise the earliest category in the fixed
enumeration order whose total is greatest (so a category with a strictly
greatest total is chosen, and ties keep the earliest). -/
def topCategorySpec (t : ExpenseCategory → Rat) : Option ExpenseCategory :=
  if ∀ c ∈ categoriesOrder, t c = 0 then none
  else categoriesOrder.find? fun c => decide (∀ c2 ∈ categoriesOrder, t c2 ≤ t c)

theorem categoryTotals_nonneg (now : JsDate) (l : List Expense)
    (h : ∀ e ∈ l, 0 ≤ e.amount) (c : ExpenseCategory) :
    0 ≤ (calculateSummary now l).categoryTotals c := by
  rw [calculateSummary_categoryTotals]
  apply List.sum_nonneg
  intro x hx
  rcases List.mem_map.mp hx with ⟨e, he, rfl⟩
  exact h e (List.mem_of_mem_filter he)

/-- The running maximum of the top-category loop either stays at its initial
value or is attained by some category of the iterated list. -/
theorem maxFold_attained (t : ExpenseCategory → Rat) :
    ∀ (cs : List ExpenseCategory) (m0 : Rat),
      maxFold t m0 cs = m0 ∨ ∃ c ∈ cs, maxFold t m0 cs = t c := by
  intro cs
  induction cs with
  | nil => intro m0; left; rfl
  | cons a cs ih =>
    intro m0
    have hstep : maxFold t m0 (a :: cs) = maxFold t (max m0 (t a)) cs := rfl
    rcases ih (max m0 (t a)) with hh | ⟨c, hc, hh⟩
    · rcases le_total (t a) m0 with hle | hle
      · left; rw [hstep, hh, max_eq_left hle]
      · right
        exact ⟨a, List.mem_cons_self a cs, by rw [hstep, hh, max_eq_right hle]⟩
    · right; exact ⟨c, List.mem_cons_of_mem _ hc, hh⟩

/-- The top-category field of the summary, in closed form: `none` unless the
running maximum ended strictly above its initial value `0`, else the first
category in iteration order attaining that maximum. -/
theorem topCategory_eq_find (now : JsDate) (l : List Expense) :
    (calculateSummary now l).topCategory =
      (if 0 < maxFold (calculateSummary now l).categoryTotals 0 categoriesOrder
        then categoriesOrder.find? fun c =>
          decide (maxFold (calculateSummary now l).categoryTotals 0 categoriesOrder ≤
            (calculateSummary now l).categoryTotals c)
        else none) := by
  have hfold : (calculateSummary now l).topCategory =
      (categoriesOrder.foldl (topStep (calculateSummary now l).categoryTotals)
        (none, 0)).1 := rfl
  rw [hfold, topStep_foldl]

/-- C3: for every expense list (with the nonnegative amounts of the data
model), the field `topCategory` of the summary is the category with the
strictly greatest total;
it is `none` when all six category totals are `0` (in particular on the empty
list); and ties for the greatest total resolve to the earliest category in
the fixed enumeration order Food, Transportation, Entertainment, Shopping,
Bills, Other. -/
theorem calculateSummary_topCategory_rule (now : JsDate) (l : List Expense)
    (h : ∀ e ∈ l, 0 ≤ e.amount) :
    (calculateSummary now l).topCategory =
      topCategorySpec (calculateSummary now l).categoryTotals := by
  have hnn : ∀ c, 0 ≤ (calculateSummary now l).categoryTotals c :=
    categoryTotals_nonneg now l h
  rw [topCategory_eq_find]
  set t := (calculateSummary now l).categoryTotals with ht
  unfold topCategorySpec
  set m := maxFold t 0 categoriesOrder with hm
  by_cases hz : ∀ c ∈ categoriesOrder, t c = 0
  · rw [if_pos hz]
    have hm0 : m = 0 := by
      rcases maxFold_attained t categoriesOrder 0 with hh | ⟨c, hc, hh⟩
      · exact hh
      · rw [hm, hh]; exact hz c hc
    rw [if_neg (by rw [hm0]; exact lt_irrefl (0 : Rat))]
  · rw [if_neg hz]
    push_neg at hz
    obtain ⟨c0, hc0, hne⟩ := hz
    have hpos : 0 < t c0 := lt_of_le_of_ne (hnn c0) (Ne.symm hne)
    have hmp : 0 < m := lt_of_lt_of_le hpos (maxFold_mem t _ hc0 0)
    rw [if_pos hmp]
    refine find?_congr_mem _ _ _ fun c hc => ?_
    apply decide_eq_decide.mpr
    constructor
    · intro hge c2 hc2
      exact le_trans (maxFold_mem t _ hc2 0) hge
    · intro hall
      rcases maxFold_attained t categoriesOrder 0 with hh | ⟨c2, hc2, hh⟩
      · rw [hm, hh]; exact hnn c
      · rw [hm, hh]; exact hall c2 hc2

/-- Concrete data for the tie-break scenario of §8: two Food records of 20
and 30 and one Bills record of 50, viewed at a February 2024 reference time,
so Food and Bills tie at 50. -/
def tieDate : JsDate := ⟨"2024-02-15", 1707955200000, 1, 2024⟩

def tieFood1 : Expense :=
  ⟨"1", ⟨"2024-01-05", 1704412800000, 0, 2024⟩, 20, ExpenseCategory.Food, "fa", "c1", "u1"⟩

def tieFood2 : Expense :=
  ⟨"2", ⟨"2024-01-20", 1705708800000, 0, 2024⟩, 30, ExpenseCategory.Food, "fb", "c2", "u2"⟩

def tieBills : Expense :=
  ⟨"3", ⟨"2024-02-01", 1706745600000, 1, 2024⟩, 50, ExpenseCategory.Bills, "bb", "c3", "u3"⟩

/-- C3 (witness): on the §8 scenario, Food and Bills tie at 50 and both the
code and the specification rule resolve the tie to Food. -/
theorem calculateSummary_topCategory_rule_witness :
    (calculateSummary tieDate [tieFood1, tieFood2, tieBills]).categoryTotals
        ExpenseCategory.Food = 50 ∧
    (calculateSummary tieDate [tieFood1, tieFood2, tieBills]).categoryTotals
        ExpenseCategory.Bills = 50 ∧
    (calculateSummary tieDate [tieFood1, tieFood2, tieBills]).topCategory =
      some ExpenseCategory.Food := by
  have hamt : ∀ e ∈ [tieFood1, tieFood2, tieBills], 0 ≤ e.amount := by
    intro e he
    simp only [List.mem_cons, List.not_mem_nil, or_false] at he
    rcases he with rfl | rfl | rfl <;> norm_num [tieFood1, tieFood2, tieBills]
  refine ⟨by with_unfolding_all rfl, by with_unfolding_all rfl, ?_⟩
  rw [calculateSummary_topCategory_rule tieDate [tieFood1, tieFood2, tieBills] hamt]
  with_unfolding_all rfl

/-- Summing the six per-category filtered totals recovers the total of all
amounts: each expense belongs to exactly one category of the enumeration. -/
theorem bucket_sum_aux (l : List Expense) :
    (categoriesOrder.map fun c =>
        ((l.filter fun e => e.category == c).map Expense.amount).sum).sum =
      (l.map Expense.amount).sum := by
  induction l with
  | nil => simp
  | cons e t ih =>
    obtain ⟨eid, ed, ea, ec, eds, eca, eua⟩ := e
    rcases ec <;>
      simp only [categoriesOrder, List.map_cons, List.map_nil, List.sum_cons, List.sum_nil,
        List.filter_cons] at ih ⊢ <;>
      simp <;> linarith [ih]

/-- C6: for every expense list, the six per-category totals of the summary
sum exactly to the grand total of all amounts in the summary. -/
theorem calculateSummary_buckets_sum_total (now : JsDate) (l : List Expense) :
    (categoriesOrder.map (calculateSummary now l).categoryTotals).sum =
      (calculateSummary now l).totalExpenses := by
  rw [calculateSummary_totalExpenses, ← bucket_sum_aux l]
  refine congrArg List.sum (List.map_congr_left fun c _ => ?_)
  exact calculateSummary_categoryTotals now l c

/-- C1 (amended): the summary operation reads the ambient system clock
internally (modelled by the `now` argument); given that clock reading, the
monthly total is exactly the sum of the amounts of the records whose date has
calendar month and year equal to those of the clock reading, and the whole result is
determined by the clock reading and the list. -/
theorem calculateSummary_monthlyTotal (now : JsDate) (l : List Expense) :
    (calculateSummary now l).monthlyTotal =
      ((l.filter fun e => decide (e.date.month = now.month ∧ e.date.year = now.year)).map
        Expense.amount).sum ∧
    (calculateSummary now l).totalExpenses = (l.map Expense.amount).sum := by
  refine ⟨?_, calculateSummary_totalExpenses now l⟩
  have hdef : (calculateSummary now l).monthlyTotal =
      (l.filter fun e =>
        e.date.month == now.month && e.date.year == now.year).foldl
        (fun sum expense => sum + expense.amount) 0 := rfl
  rw [hdef, foldl_add_amount, zero_add]
  refine congrArg _ (congrArg _ (List.filter_congr fun e _ => ?_))
  by_cases h1 : e.date.month = now.month <;> by_cases h2 : e.date.year = now.year <;>
    simp [h1, h2]

/-- Concrete inputs showing the clock dependence of the summary: one January
2024 expense viewed at two different ambient clock readings. -/
def clockJan : JsDate := ⟨"2024-01-20", 1705708800000, 0, 2024⟩

def clockFeb : JsDate := ⟨"2024-02-15", 1707955200000, 1, 2024⟩

def clockExp : Expense :=
  ⟨"a", ⟨"2024-01-15", 1705276800000, 0, 2024⟩, 10, ExpenseCategory.Food, "x", "c0", "u0"⟩

/-- C1 (counterexample): the summary operation reads the system clock
internally, so its result is not determined by the expense list together with
a caller-supplied reference time — the same single-expense list yields
monthly total 10 under a January 2024 clock reading and 0 under a February
2024 one. -/
theorem calculateSummary_clock_cex :
    (calculateSummary clockJan [clockExp]).monthlyTotal = 10 ∧
    (calculateSummary clockFeb [clockExp]).monthlyTotal = 0 ∧
    calculateSummary clockJan [clockExp] ≠ calculateSummary clockFeb [clockExp] := by
  refine ⟨by with_unfolding_all rfl, by with_unfolding_all rfl, fun hcontra => ?_⟩
  have h10 : (10 : Rat) = 0 := by
    calc (10 : Rat) = (calculateSummary clockJan [clockExp]).monthlyTotal := by
          with_unfolding_all rfl
    _ = (calculateSummary clockFeb [clockExp]).monthlyTotal := by rw [hcontra]
    _ = 0 := by with_unfolding_all rfl
  norm_num at h10

/-- C2 (amended): provided the partial update does not itself target `id` or
`createdAt`, updating changes on the matching record only the targeted fields
plus `updatedAt`, leaves `id` and `createdAt` untouched, leaves every
non-matching record unchanged, and is a no-op when no record has the given
id. -/
theorem updateExpense_frame (l : List Expense) (i : String) (p : PartialExpense) (now : String)
    (hid : p.id = none) (hcr : p.createdAt = none) :
    updateExpense l i p now = (l.map fun e =>
      if e.id == i then
        { id := e.id
          date := p.date.getD e.date
          amount := p.amount.getD e.amount
          category := p.category.getD e.category
          description := p.description.getD e.description
          createdAt := e.createdAt
          updatedAt := now }
      else e) ∧
    ((∀ e ∈ l, e.id ≠ i) → updateExpense l i p now = l) := by
  unfold updateExpense
  constructor
  · refine List.map_congr_left fun e _ => ?_
    by_cases h : (e.id == i) = true
    · simp [h, hid, hcr]
    · simp [h]
  · intro hall
    have hpt : ∀ e ∈ l,
        (if e.id == i then
          { id := p.id.getD e.id
            date := p.date.getD e.date
            amount := p.amount.getD e.amount
            category := p.category.getD e.category
            description := p.description.getD e.description
            createdAt := p.createdAt.getD e.createdAt
            updatedAt := now }
        else e) = e := by
      intro e he
      have hne : ¬(e.id == i) = true := by simp [hall e he]
      simp [hne]
    calc l.map _ = l.map (fun e => e) := List.map_congr_left hpt
    _ = l := List.map_id' l

/-- Concrete records for the update-frame scenarios. -/
def updBase : Expense :=
  ⟨"a", ⟨"2024-01-15", 1705276800000, 0, 2024⟩, 10, ExpenseCategory.Food, "orig", "c0", "u0"⟩

def updOther : Expense :=
  ⟨"b", ⟨"2024-02-01", 1706745600000, 1, 2024⟩, 5, ExpenseCategory.Bills, "other", "cb", "ub"⟩

def updPatch : PartialExpense := ⟨none, none, some 99, none, some "newdesc", none, none⟩

/-- C2 (witness): at a concrete two-record store, a partial update of amount
and description rewrites exactly those fields plus `updatedAt` on the
matching record, keeps its `id`/`createdAt`, keeps the other record, and an
unmatched id is a no-op. -/
theorem updateExpense_frame_witness :
    updateExpense [updBase, updOther] "a" updPatch "t2" =
      [⟨"a", ⟨"2024-01-15", 1705276800000, 0, 2024⟩, 99, ExpenseCategory.Food, "newdesc",
        "c0", "t2"⟩, updOther] ∧
    updateExpense [updBase, updOther] "zz" updPatch "t2" = [updBase, updOther] := by
  constructor
  · rw [(updateExpense_frame [updBase, updOther] "a" updPatch "t2" rfl rfl).1]
    with_unfolding_all rfl
  · refine (updateExpense_frame [updBase, updOther] "zz" updPatch "t2" rfl rfl).2 ?_
    intro e he
    simp only [List.mem_cons, List.not_mem_nil, or_false] at he
    rcases he with rfl | rfl <;> simp [updBase, updOther]

/-- Concrete record and partial update targeting `createdAt`. -/
def cexBase : Expense :=
  ⟨"a", ⟨"2024-01-15", 1705276800000, 0, 2024⟩, 10, ExpenseCategory.Food, "x", "orig", "u0"⟩

def cexPatch : PartialExpense := ⟨none, none, none, none, none, some "HACK", none⟩

/-- C2 (counterexample): the update operation spreads the partial over the
record, so a partial whose fields include `createdAt` overwrites the matching
`createdAt` of the matching record — it is not left untouched for every set of partial
fields. -/
theorem updateExpense_createdAt_cex :
    (updateExpense [cexBase] "a" cexPatch "t9").map Expense.createdAt = ["HACK"] ∧
    cexBase.createdAt = "orig" := by
  constructor <;> with_unfolding_all rfl

/-- C4 (amended): starting from a store with pairwise-distinct ids, delete
always preserves distinctness; update preserves it whenever the partial does
not target `id`; and add preserves it whenever the id of the added expense is not
already present (the operations themselves never check, so these side
conditions are necessary). -/
theorem ids_nodup_preserved (l : List Expense) (hl : (l.map Expense.id).Nodup) :
    (∀ e : Expense, e.id ∉ l.map Expense.id →
      ((addExpense l e).map Expense.id).Nodup) ∧
    (∀ (i now : String) (p : PartialExpense), p.id = none →
      ((updateExpense l i p now).map Expense.id).Nodup) ∧
    (∀ i : String, ((deleteExpense l i).map Expense.id).Nodup) := by
  refine ⟨?_, ?_, ?_⟩
  · intro e he
    unfold addExpense
    rw [List.map_append, List.nodup_append]
    refine ⟨hl, List.nodup_singleton _, ?_⟩
    intro a ha hb
    rw [List.map_singleton, List.mem_singleton] at hb
    subst hb
    exact he ha
  · intro i now p hp
    have hsame : (updateExpense l i p now).map Expense.id = l.map Expense.id := by
      unfold updateExpense
      rw [List.map_map]
      refine List.map_congr_left fun e _ => ?_
      by_cases h : (e.id == i) = true
      · simp [Function.comp, h, hp]
      · simp [Function.comp, h]
    rw [hsame]
    exact hl
  · intro i
    unfold deleteExpense
    exact List.Nodup.sublist (List.Sublist.map _ (List.filter_sublist l)) hl

/-- Concrete records sharing the id "a". -/
def dupA : Expense :=
  ⟨"a", ⟨"2024-01-05", 1704412800000, 0, 2024⟩, 10, ExpenseCategory.Food, "x", "c", "u"⟩

def dupB : Expense :=
  ⟨"a", ⟨"2024-02-05", 1707091200000, 1, 2024⟩, 20, ExpenseCategory.Bills, "y", "c2", "u2"⟩

def dupC : Expense :=
  ⟨"b", ⟨"2024-03-05", 1709596800000, 2, 2024⟩, 30, ExpenseCategory.Other, "z", "c3", "u3"⟩

/-- C4 (counterexample): add performs a plain append, so adding an expense
whose id already exists in the store yields a persisted list with duplicate
ids — the uniqueness invariant is not preserved for every argument. -/
theorem addExpense_dup_cex :
    ([dupA].map Expense.id).Nodup ∧
    ¬((addExpense [dupA] dupB).map Expense.id).Nodup := by
  constructor
  · simp
  · intro h
    have : (addExpense [dupA] dupB).map Expense.id = ["a", "a"] := by
      with_unfolding_all rfl
    rw [this] at h
    simp at h

/-- C4 (witness): the amended preservation statement at a concrete store. -/
theorem ids_nodup_preserved_witness :
    (([dupA].map Expense.id).Nodup) ∧
    ((addExpense [dupA] dupC).map Expense.id).Nodup ∧
    ((updateExpense [dupA] "a" updPatch "t3").map Expense.id).Nodup ∧
    ((deleteExpense [dupA] "a").map Expense.id).Nodup := by
  have hl : ([dupA].map Expense.id).Nodup := by simp
  have h := ids_nodup_preserved [dupA] hl
  refine ⟨hl, h.1 dupC ?_, h.2.1 "a" "t3" updPatch rfl, h.2.2 "a"⟩
  intro hmem
  simp [dupA, dupC] at hmem

/-- C9: delete removes exactly the records whose id equals the given id — the
result is an order-preserving sublist of the store, contains no record with
the given id, retains every record with a different id, and is the unchanged
store when no record matches. -/
theorem deleteExpense_spec (l : List Expense) (i : String) :
    List.Sublist (deleteExpense l i) l ∧
    (∀ e ∈ deleteExpense l i, e.id ≠ i) ∧
    (∀ e ∈ l, e.id ≠ i → e ∈ deleteExpense l i) ∧
    ((∀ e ∈ l, e.id ≠ i) → deleteExpense l i = l) := by
  refine ⟨List.filter_sublist l, ?_, ?_, ?_⟩
  · intro e he
    have := (List.mem_filter.mp he).2
    simpa using this
  · intro e he hne
    exact List.mem_filter.mpr ⟨he, by simpa using hne⟩
  · intro hall
    exact List.filter_eq_self.mpr fun e he => by simpa using hall e he

/-- C9 (witness): deleting id "a" from a concrete two-record store removes
exactly the matching record; deleting an absent id is a no-op. -/
theorem deleteExpense_spec_witness :
    deleteExpense [dupA, dupC] "a" = [dupC] ∧
    deleteExpense [dupA, dupC] "zz" = [dupA, dupC] := by
  constructor
  · with_unfolding_all rfl
  · refine (deleteExpense_spec [dupA, dupC] "zz").2.2.2 ?_
    intro e he
    simp only [List.mem_cons, List.not_mem_nil, or_false] at he
    rcases he with rfl | rfl <;> simp [dupA, dupC]

/-- C10: the load operation never fails outward — under an undefined window,
a throwing read, absent storage, or content whose parse throws, it returns
the empty list, and it returns the parsed list only on a successful read and
parse of a nonempty stored string. -/
theorem getExpenses_error_handling (w : Bool) (rd : StorageRead)
    (ps : String → Except Unit (List Expense)) :
    (w = false → getExpenses w rd ps = []) ∧
    (∀ er : Unit, rd = Except.error er → getExpenses w rd ps = []) ∧
    (rd = Except.ok none → getExpenses w rd ps = []) ∧
    (∀ (s : String) (er : Unit), rd = Except.ok (some s) → ps s = Except.error er →
      getExpenses w rd ps = []) ∧
    (∀ (s : String) (es : List Expense), w = true → rd = Except.ok (some s) → s ≠ "" →
      ps s = Except.ok es → getExpenses w rd ps = es) := by
  refine ⟨?_, ?_, ?_, ?_, ?_⟩
  · intro hw; subst hw; rfl
  · intro er hrd; subst hrd; cases w <;> rfl
  · intro hrd; subst hrd; cases w <;> rfl
  · intro s er hrd hps
    subst hrd
    cases w
    · rfl
    · unfold getExpenses
      by_cases hs : s = ""
      · simp [hs]
      · simp [hs, hps]
  · intro s es hw hrd hs hps
    subst hw; subst hrd
    unfold getExpenses
    simp [hs, hps]

/-- C10 (witness): the error paths at concrete storage states, and the
success path on a parseable state. -/
theorem getExpenses_error_handling_witness :
    getExpenses true (Except.error ()) (fun _ => Except.ok [dupA]) = [] ∧
    getExpenses true (Except.ok none) (fun _ => Except.ok [dupA]) = [] ∧
    getExpenses true (Except.ok (some "garbage")) (fun _ => Except.error ()) = [] ∧
    getExpenses true (Except.ok (some "[payload]")) (fun _ => Except.ok [dupA]) = [dupA] := by
  refine ⟨(getExpenses_error_handling true _ _).2.1 () rfl,
    (getExpenses_error_handling true _ _).2.2.1 rfl,
    (getExpenses_error_handling true _ _).2.2.2.1 "garbage" () rfl rfl,
    (getExpenses_error_handling true _ _).2.2.2.2 "[payload]" [dupA] rfl rfl (by simp) rfl⟩

/-- JavaScript `join`: the head followed by each remaining element prefixed
with the separator, and nothing after the last element. -/
theorem joinWith_cons (sep h : String) (t : List String) :
    joinWith sep (h :: t) = h ++ t.foldr (fun r acc => sep ++ r ++ acc) "" := by
  induction t generalizing h with
  | nil => simp [joinWith]
  | cons a t ih =>
    have hdef : joinWith sep (h :: a :: t) = h ++ sep ++ joinWith sep (a :: t) := rfl
    rw [hdef, ih a]
    simp [String.append_assoc]

/-- C5: the CSV export is exactly the fixed header row followed, in input
order, by one newline-prefixed row per expense — raw date, raw category, raw
amount rendering, and the description wrapped in double quotes with every
inner double quote doubled — with no trailing newline; on the empty list it
is exactly the header row; and the §8 description with an embedded quote and
comma produces exactly the stated field. -/
theorem exportToCSV_spec (numStr : Rat → String) (l : List Expense) :
    exportToCSV numStr l =
      "Date,Category,Amount,Description" ++
        (l.map fun e =>
            e.date.str ++ "," ++ categoryName e.category ++ "," ++ numStr e.amount ++ "," ++
              "\x22" ++ escapeQuotes e.description ++ "\x22").foldr
          (fun row acc => "\n" ++ row ++ acc) "" ∧
    exportToCSV numStr [] = "Date,Category,Amount,Description" ∧
    "\x22" ++ escapeQuotes "Lunch at \x22Joe\x27s\x22, downtown" ++ "\x22" =
      "\x22Lunch at \x22\x22Joe\x27s\x22\x22, downtown\x22" := by
  refine ⟨?_, by with_unfolding_all rfl, by with_unfolding_all rfl⟩
  unfold exportToCSV
  rw [joinWith_cons]
  have hhead : joinWith "," ["Date", "Category", "Amount", "Description"] =
      "Date,Category,Amount,Description" := rfl
  rw [hhead]
  congr 1
  congr 1
  refine List.map_congr_left fun e _ => ?_
  have hrow : joinWith ","
      [e.date.str, categoryName e.category, numStr e.amount,
        "\x22" ++ escapeQuotes e.description ++ "\x22"] =
      e.date.str ++ "," ++ (categoryName e.category ++ "," ++ (numStr e.amount ++ "," ++
        ("\x22" ++ escapeQuotes e.description ++ "\x22"))) := rfl
  rw [hrow]
  simp only [String.append_assoc]


/-- The category predicate of the filter criteria: pass unless a concrete
category (not "All", not absent) is selected and differs. -/
def passCategory (f : Filters) (e : Expense) : Bool :=
  match f.category with
  | some (CategorySel.Cat c) => e.category == c
  | _ => true

/-- The text predicate: case-insensitive substring match on the description,
passing when the query is empty. -/
def passSearch (f : Filters) (e : Expense) : Bool :=
  if f.searchQuery = "" then true
  else containsSub (toLowerStr f.searchQuery).data (toLowerStr e.description).data

/-- The lower bound predicate: `date >= startDate` when a bound is present. -/
def passStart (f : Filters) (e : Expense) : Bool :=
  match f.startDate with
  | some d => decide (d ≤ e.date.time)
  | none => true

/-- The upper bound predicate: `date <= endDate` when a bound is present. -/
def passEnd (f : Filters) (e : Expense) : Bool :=
  match f.endDate with
  | some d => decide (e.date.time ≤ d)
  | none => true

/-- Conjunction of the four filter predicates, active ones ANDed and inactive
ones `true`. -/
def passesAll (f : Filters) (e : Expense) : Bool :=
  passCategory f e && passSearch f e && passStart f e && passEnd f e

/-- The sequentially applied conditional filter passes of the expenses page
amount to one filter by the conjunction of the active predicates, followed by
the date-descending sort. -/
theorem filterExpenses_eq_staged (l : List Expense) (f : Filters) :
    filterExpenses l f = sortByDateDesc (l.filter fun e => passesAll f e) := by
  obtain ⟨fcat, fq, fsd, fed⟩ := f
  unfold filterExpenses
  dsimp only
  rcases fcat with _ | sel
  case mk.none =>
    rcases fsd with _ | sd <;> rcases fed with _ | ed <;> by_cases hq : fq = "" <;>
      simp [passesAll, passCategory, passSearch, passStart, passEnd, hq,
        List.filter_filter, Bool.and_comm, Bool.and_left_comm, Bool.and_assoc]
  case mk.some =>
    rcases sel with _ | c <;> rcases fsd with _ | sd <;> rcases fed with _ | ed <;>
      by_cases hq : fq = "" <;>
      simp [passesAll, passCategory, passSearch, passStart, passEnd, hq,
        List.filter_filter, Bool.and_comm, Bool.and_left_comm, Bool.and_assoc]

/-- C7: the filter operation returns exactly the records passing every
active predicate — category match unless absent or "All", case-insensitive
description substring unless the query is empty, and inclusive date bounds
when present, all ANDed — and its result is sorted by date descending
regardless of the input order. -/
theorem filterExpenses_spec (l : List Expense) (f : Filters) :
    List.Perm (filterExpenses l f) (l.filter fun e => passesAll f e) ∧
    List.Pairwise dateDescRel (filterExpenses l f) ∧
    (∀ e, e ∈ filterExpenses l f ↔ (e ∈ l ∧ passesAll f e = true)) := by
  have hst := filterExpenses_eq_staged l f
  refine ⟨?_, ?_, fun e => ?_⟩
  · rw [hst]; exact List.perm_insertionSort dateDescRel _
  · rw [hst]; exact List.sorted_insertionSort dateDescRel _
  · rw [hst]
    unfold sortByDateDesc
    rw [List.mem_insertionSort]
    exact List.mem_filter

/-- C7 (witness): filtering the §8 records by category Food with no bounds
keeps exactly the two Food records, most recent first. -/
theorem filterExpenses_spec_witness :
    filterExpenses [tieFood1, tieBills, tieFood2]
      ⟨some (CategorySel.Cat ExpenseCategory.Food), "", none, none⟩ = [tieFood2, tieFood1] ∧
    (∀ e ∈ filterExpenses [tieFood1, tieBills, tieFood2]
        ⟨some (CategorySel.Cat ExpenseCategory.Food), "", none, none⟩,
      e ∈ [tieFood1, tieBills, tieFood2] ∧
        passesAll ⟨some (CategorySel.Cat ExpenseCategory.Food), "", none, none⟩ e = true) := by
  constructor
  · with_unfolding_all rfl
  · intro e he
    exact ((filterExpenses_spec [tieFood1, tieBills, tieFood2]
      ⟨some (CategorySel.Cat ExpenseCategory.Food), "", none, none⟩).2.2 e).mp he

/-- C8: the filter operation is idempotent — filtering its own output again
with the same criteria returns that output unchanged, element for element. -/
theorem filterExpenses_idem (l : List Expense) (f : Filters) :
    filterExpenses (filterExpenses l f) f = filterExpenses l f := by
  have hst := filterExpenses_eq_staged l f
  have hpass : ∀ e ∈ filterExpenses l f, passesAll f e = true := by
    intro e he
    rw [hst] at he
    unfold sortByDateDesc at he
    rw [List.mem_insertionSort] at he
    exact (List.mem_filter.mp he).2
  have hsorted : List.Pairwise dateDescRel (filterExpenses l f) := by
    rw [hst]
    exact List.sorted_insertionSort dateDescRel _
  rw [filterExpenses_eq_staged (filterExpenses l f) f,
    List.filter_eq_self.mpr hpass]
  unfold sortByDateDesc
  exact List.Sorted.insertionSort_eq hsorted
